import Mathlib

set_option maxRecDepth 1000000

/-!
Verification development for the loose-object codec and store of the
`dasa.cc/git` repository (writer.go, type.go, the Reader/tree transcoder
file, and the store file).

Modelling conventions:
- A Go byte slice / string is a `List Nat` of byte values.
- zlib compression is an external stdlib collaborator and is bijective on
  streams, so the staging stream is modelled by its pre-compression
  content: the bytes fed to the writer's `io.MultiWriter(zw, hh)` (field
  `out` below) are both the digest input and the (de)compressed content a
  `Reader` sees.
- `crypto/sha1` is modelled by an executable SHA-1 over byte lists.
- Fallible Go calls return `Res`; a Go `panic` is the distinguished
  outcome `Res.panicked`, kept separate from returned `error` values.
-/

/-- Byte values of a string literal (ASCII). -/
def strB (s : String) : List Nat := s.data.map Char.toNat

/-- Split off the shortest prefix ending in the delimiter `d`, delimiter
included, like `bufio.Reader.ReadBytes`; `none` models the EOF case where
no delimiter occurs. -/
def readBytes (d : Nat) : List Nat → Option (List Nat × List Nat)
  | [] => none
  | b :: bs =>
    if b = d then some ([b], bs)
    else
      match readBytes d bs with
      | none => none
      | some (tok, rest) => some (b :: tok, rest)

/-- Decimal digit bytes of a natural number, most significant first
(the `%v` rendering used by `Type.Header`); structural on a fuel bound so
that it evaluates in the kernel, with any `fuel ≥ n` sufficient. -/
def decBAux : Nat → Nat → List Nat → List Nat
  | _, 0, acc => 48 :: acc
  | 0, n, acc => (48 + n % 10) :: acc
  | fuel + 1, n, acc =>
    if n < 10 then (48 + n) :: acc
    else decBAux fuel (n / 10) ((48 + n % 10) :: acc)

/-- Decimal rendering of a natural number as ASCII bytes. -/
def decB (n : Nat) : List Nat := decBAux n n []

/-- Value of a nonempty all-digit byte string, accumulator form. -/
def digitsValAux : List Nat → Nat → Option Nat
  | [], acc => some acc
  | c :: cs, acc =>
    if 48 ≤ c ∧ c ≤ 57 then digitsValAux cs (acc * 10 + (c - 48)) else none

/-- Value of a nonempty all-digit byte string. -/
def digitsVal (l : List Nat) : Option Nat :=
  if l = [] then none else digitsValAux l 0

/-- `strconv.Atoi`: optional sign, then a nonempty run of digits. -/
def atoi (s : List Nat) : Option Int :=
  match s with
  | [] => none
  | c :: rest =>
    if c = 45 then (digitsVal rest).map (fun v => -(v : Int))
    else if c = 43 then (digitsVal rest).map (fun v => (v : Int))
    else (digitsVal s).map (fun v => (v : Int))

/-- Lowercase hex digit byte for a value below 16 (`encoding/hex`). -/
def hexChar (n : Nat) : Nat := if n < 10 then 48 + n else 87 + n

/-- `hex.Encode`: two lowercase hex digit bytes per input byte. -/
def hexEncode : List Nat → List Nat
  | [] => []
  | b :: bs => hexChar (b / 16) :: hexChar (b % 16) :: hexEncode bs

/-- `hex.fromHexChar`: value of one hex digit byte, upper or lower case. -/
def hexDigit (c : Nat) : Option Nat :=
  if 48 ≤ c ∧ c ≤ 57 then some (c - 48)
  else if 97 ≤ c ∧ c ≤ 102 then some (c - 87)
  else if 65 ≤ c ∧ c ≤ 70 then some (c - 55)
  else none

/-- `hex.Decode` pair scan: the bytes written before any failure, and
whether the whole input was consumed as valid hex pairs (an odd trailing
byte or an invalid digit is `hex.Decode`'s error return). -/
def hexDecodePairs : List Nat → List Nat × Bool
  | [] => ([], true)
  | [_] => ([], false)
  | a :: b :: rest =>
    match hexDigit a, hexDigit b with
    | some x, some y =>
      let p := hexDecodePairs rest
      ((16 * x + y) :: p.1, p.2)
    | _, _ => ([], false)

/-- Association-list lookup (Go map indexing / file-path existence). -/
def lookupA {α : Type} [DecidableEq α] : List (α × List Nat) → α → Option (List Nat)
  | [], _ => none
  | (k, v) :: rest, h => if k = h then some v else lookupA rest h

/-- Truncate to 32 bits. -/
def u32 (n : Nat) : Nat := n % 4294967296

/-- Truncate to 8 bits. -/
def u8 (n : Nat) : Nat := n % 256

/-- 32-bit rotate left. -/
def rotl (s x : Nat) : Nat := u32 ((x <<< s) ||| (x >>> (32 - s)))

/-- Big-endian 32-bit word from four bytes. -/
def be4 (a b c d : Nat) : Nat := ((a * 256 + b) * 256 + c) * 256 + d

/-- Big-endian byte groups of a 64-byte block as 32-bit words. -/
def toWords : List Nat → List Nat
  | a :: b :: c :: d :: rest => be4 a b c d :: toWords rest
  | _ => []

/-- SHA-1 message-schedule extension: append `n` further words. -/
def schedAux : List Nat → Nat → List Nat
  | w, 0 => w
  | w, n + 1 =>
    let i := w.length
    let x := rotl 1 (w.getD (i - 3) 0 ^^^ w.getD (i - 8) 0 ^^^ w.getD (i - 14) 0 ^^^ w.getD (i - 16) 0)
    schedAux (w ++ [x]) n

/-- The 80-word SHA-1 schedule from the 16 block words. -/
def sched (w : List Nat) : List Nat := schedAux w 64

/-- SHA-1 round function. -/
def sha1F (t b c d : Nat) : Nat :=
  if t < 20 then (b &&& c) ||| ((b ^^^ 4294967295) &&& d)
  else if t < 40 then b ^^^ c ^^^ d
  else if t < 60 then (b &&& c) ||| (b &&& d) ||| (c &&& d)
  else b ^^^ c ^^^ d

/-- SHA-1 round constants. -/
def sha1K (t : Nat) : Nat :=
  if t < 20 then 1518500249
  else if t < 40 then 1859775393
  else if t < 60 then 2400959708
  else 3395469782

/-- The 80 SHA-1 rounds over the indexed schedule. -/
def sha1Rounds : List (Nat × Nat) → Nat × Nat × Nat × Nat × Nat → Nat × Nat × Nat × Nat × Nat
  | [], st => st
  | (t, wt) :: rest, (a, b, c, d, e) =>
    sha1Rounds rest (u32 (rotl 5 a + sha1F t b c d + e + sha1K t + wt), a, rotl 30 b, c, d)

/-- One SHA-1 compression step on a 64-byte block. -/
def sha1Block (st : Nat × Nat × Nat × Nat × Nat) (block : List Nat) : Nat × Nat × Nat × Nat × Nat :=
  match sha1Rounds (sched (toWords block)).enum st, st with
  | (a, b, c, d, e), (h0, h1, h2, h3, h4) =>
    (u32 (h0 + a), u32 (h1 + b), u32 (h2 + c), u32 (h3 + d), u32 (h4 + e))

/-- Fold the compression function over consecutive 64-byte blocks;
structural on a fuel bound so that it evaluates in the kernel, with any
`fuel ≥ m.length` sufficient (each step consumes 64 bytes). -/
def sha1BlocksF : Nat → Nat × Nat × Nat × Nat × Nat → List Nat → Nat × Nat × Nat × Nat × Nat
  | _, st, [] => st
  | 0, st, _ => st
  | fuel + 1, st, m => sha1BlocksF fuel (sha1Block st (m.take 64)) (m.drop 64)

/-- Fold the compression function over consecutive 64-byte blocks. -/
def sha1Blocks (st : Nat × Nat × Nat × Nat × Nat) (m : List Nat) : Nat × Nat × Nat × Nat × Nat :=
  sha1BlocksF m.length st m

/-- Big-endian 8-byte rendering of the bit length. -/
def be8 (n : Nat) : List Nat :=
  [u8 (n >>> 56), u8 (n >>> 48), u8 (n >>> 40), u8 (n >>> 32),
   u8 (n >>> 24), u8 (n >>> 16), u8 (n >>> 8), u8 n]

/-- Big-endian 4-byte rendering of a 32-bit word. -/
def be4b (n : Nat) : List Nat := [u8 (n >>> 24), u8 (n >>> 16), u8 (n >>> 8), u8 n]

/-- SHA-1 padding: 0x80, zeros to 56 mod 64, then the 64-bit bit length. -/
def sha1Pad (m : List Nat) : List Nat :=
  m ++ 128 :: (List.replicate ((119 - m.length % 64) % 64) 0 ++ be8 (m.length * 8))

/-- SHA-1 digest (20 bytes) of a byte list, as in `crypto/sha1`. -/
def sha1 (m : List Nat) : List Nat :=
  let t := sha1Blocks (1732584193, 4023233417, 2562383102, 271733878, 3285377520) (sha1Pad m)
  be4b t.1 ++ be4b t.2.1 ++ be4b t.2.2.1 ++ be4b t.2.2.2.1 ++ be4b t.2.2.2.2

/-- Outcome of a fallible Go call: a normal value, a returned `error`
(message bytes), or a `panic`. -/
inductive Res (α : Type) where
  | ok : α → Res α
  | err : List Nat → Res α
  | panicked : Res α
deriving DecidableEq, Repr

/-- Whether a `Res` is a normal value. -/
def Res.isOk {α : Type} : Res α → Bool
  | .ok _ => true
  | _ => false

/-- Whether a `Res` is a returned error. -/
def Res.isErr {α : Type} : Res α → Bool
  | .err _ => true
  | _ => false

/-- `Type` from type.go: the closed enumeration of git object kinds,
zero value `Blob`. -/
inductive ObjType where
  | Blob
  | Tree
  | Commit
deriving DecidableEq, Repr

/-- `Type.String`: the canonical lowercase token. -/
def typeStr : ObjType → List Nat
  | .Blob => strB "blob"
  | .Tree => strB "tree"
  | .Commit => strB "commit"

/-- `Type.Header`: the NUL-terminated framing header
`<type-token> <decimal-length>\x00`. -/
def headerBytes (t : ObjType) (n : Nat) : List Nat :=
  typeStr t ++ [32] ++ decB n ++ [0]

/-- `ParseType` from type.go: the three fixed tokens; any other token hits
the `panic` in the source, modelled as `none`. -/
def parseType (q : List Nat) : Option ObjType :=
  if q = strB "blob" then some .Blob
  else if q = strB "tree" then some .Tree
  else if q = strB "commit" then some .Commit
  else none

/-- State of a `treeWriter` (writer.go): residual input bytes `rbuf`,
residual binary output bytes `wbuf`, and the 20-byte scratch `sum`. -/
structure TWState where
  rbuf : List Nat
  wbuf : List Nat
  sum : List Nat
deriving DecidableEq, Repr

/-- Fresh `treeWriter` state as built by `writer.WriteHeader`. -/
def twInit : TWState := ⟨[], [], List.replicate 20 0⟩

/-- Result of one iteration of the `treeWriter.Write` parse loop:
`brk` is the loop break on a read or hex error (carrying the scratch
`sum` as left by a partial `hex.Decode`), `panicked` is the
out-of-range write inside `hex.Decode` when more than 20 bytes decode,
and `line` is one complete parsed line with its binary rendering. -/
inductive TwLineRes where
  | brk : List Nat → TwLineRes
  | panicked : TwLineRes
  | line : List Nat → List Nat → List Nat → TwLineRes
deriving DecidableEq, Repr

/-- One iteration of the `treeWriter.Write` loop: read `mode` up to the
space (stripping one leading `0`), discard the type token, read and
hex-decode the digest up to the tab, read `name` up to the newline and
NUL-terminate it, and emit `<mode><SP><name>\x00<20 raw bytes>`. -/
def twLine (input : List Nat) (sum : List Nat) : TwLineRes :=
  match readBytes 32 input with
  | none => .brk sum
  | some (mode0, r1) =>
    let mode := if mode0.head? = some 48 then mode0.tail else mode0
    match readBytes 32 r1 with
    | none => .brk sum
    | some (_, r2) =>
      match readBytes 9 r2 with
      | none => .brk sum
      | some (h0, r3) =>
        let p := hexDecodePairs h0.dropLast
        if 20 < p.1.length then .panicked
        else
          let sum1 := p.1 ++ sum.drop p.1.length
          if p.2 then
            match readBytes 10 r3 with
            | none => .brk sum1
            | some (name0, r4) =>
              .line (mode ++ (name0.dropLast ++ [0]) ++ sum1) r4 sum1
          else .brk sum1

/-- The whole `treeWriter.Write` parse loop over drained input, producing
the concatenated binary rendering of the complete lines and the final
scratch `sum`; `none` is the `hex.Decode` panic. Structural on a fuel
bound so that it evaluates in the kernel; any `fuel ≥ input.length` is
sufficient since every parsed line consumes at least one byte. -/
def twLoopF : Nat → List Nat → List Nat → Option (List Nat × List Nat)
  | 0, input, sum =>
    match twLine input sum with
    | .brk s => some ([], s)
    | .panicked => none
    | .line _ _ _ => some ([], sum)
  | fuel + 1, input, sum =>
    match twLine input sum with
    | .brk s => some ([], s)
    | .panicked => none
    | .line bin rest s =>
      match twLoopF fuel rest s with
      | none => none
      | some (out, s') => some (bin ++ out, s')

/-- The `treeWriter.Write` parse loop with adequate fuel. -/
def twLoop (input : List Nat) (sum : List Nat) : Option (List Nat × List Nat) :=
  twLoopF input.length input sum

/-- `treeWriter.Write`: append `p` to the residual input, drain it
through a fresh `bufio.Reader` (so at most 4096 buffered bytes — all of
them here — leave `rbuf`, and any bytes of a partial trailing line are
discarded with the dropped `bufio.Reader`), convert complete lines, and
flush the first `p.length` bytes of the binary buffer to the underlying
writer. The returned list is the flushed bytes; the `io.EOF`-style error
that the loop always ends with is not modelled since the Go caller
treats it as success. `none` is the `hex.Decode` panic. -/
def twWrite (st : TWState) (p : List Nat) : Option (TWState × List Nat) :=
  let input := st.rbuf ++ p
  match twLoop input st.sum with
  | none => none
  | some (bin, sum') =>
    let wb := st.wbuf ++ bin
    some (⟨[], wb.drop p.length, sum'⟩, wb.take p.length)

/-- State of a `writer` (writer.go): whether the header was written, the
declared type, the `treeWriter` transcoder when spooling, the spool file
contents `tmp`, and `out`, the bytes fed to
`io.MultiWriter(zlibWriter, sha1Hash)` — simultaneously the digest input
and the content of the compressed staging stream. -/
structure WState where
  wroteHeader : Bool
  t : ObjType
  tw : Option TWState
  tmp : List Nat
  out : List Nat
deriving DecidableEq, Repr

/-- `NewWriter`: fresh state with nothing written. -/
def newWriter : WState := ⟨false, .Blob, none, [], []⟩

/-- `writer.WriteHeader`: error when called twice; for `Tree` or a
negative size, set up the spool file and `treeWriter`; otherwise emit the
header immediately through compression and the digest. -/
def writeHeader (g : WState) (t : ObjType) (s : Int) : Res (WState × Nat) :=
  if g.wroteHeader then .err (strB "Header already written.")
  else
    let g1 : WState := { g with t := t, wroteHeader := true }
    if t = .Tree ∨ s < 0 then
      .ok ({ g1 with tw := some twInit, tmp := [] }, 0)
    else
      .ok ({ g1 with out := g1.out ++ headerBytes t s.toNat }, (headerBytes t s.toNat).length)

/-- `writer.Write`: error before `WriteHeader`; with a `treeWriter`,
transcode into the spool file; otherwise stream through compression and
the digest. -/
def wWrite (g : WState) (p : List Nat) : Res (WState × Nat) :=
  if g.wroteHeader = false then .err (strB "Must call WriteHeader before calling Write.")
  else
    match g.tw with
    | some st =>
      match twWrite st p with
      | none => .panicked
      | some (st', flushed) =>
        .ok ({ g with tw := some st', tmp := g.tmp ++ flushed }, flushed.length)
    | none => .ok ({ g with out := g.out ++ p }, p.length)

/-- A sequence of `writer.Write` calls. -/
def wWriteMany (g : WState) : List (List Nat) → Res WState
  | [] => .ok g
  | p :: ps =>
    match wWrite g p with
    | .ok (g', _) => wWriteMany g' ps
    | .err e => .err e
    | .panicked => .panicked

/-- `writer.Close`: when spooling, measure the spool file, emit the
header with that exact size, and copy the spooled bytes through
compression and the digest; then finalize compression. -/
def wClose (g : WState) : Res WState :=
  match g.tw with
  | some _ => .ok { g with out := g.out ++ headerBytes g.t g.tmp.length ++ g.tmp }
  | none => .ok g

/-- `writer.Hash`: lowercase hex of the SHA-1 accumulated so far. -/
def wHash (g : WState) : List Nat := hexEncode (sha1 g.out)

/-- `Reader.Reset` header parsing over the decompressed stream: a
28-byte lookahead window is scanned for `<type-token><SP>` and then the
NUL-terminated decimal length; unread window bytes are prepended back to
the remaining stream. An unknown type token hits the `panic` inside
`ParseType`. The result carries the parsed type, the `Atoi` length and
the payload stream. -/
def readObject (framed : List Nat) : Res (ObjType × Int × List Nat) :=
  let window := framed.take 28
  match readBytes 32 window with
  | none => .err (strB "EOF")
  | some (ttok, r1) =>
    match parseType ttok.dropLast with
    | none => .panicked
    | some t =>
      match readBytes 0 r1 with
      | none => .err (strB "EOF")
      | some (ntok, r2) =>
        match atoi ntok.dropLast with
        | none => .err (strB "invalid syntax")
        | some n => .ok (t, n, r2 ++ framed.drop 28)

/-- Result of one iteration of the `treeReader.Read` loop: `brk` is the
loop break on a read error, carrying the text already written to the
output buffer by this iteration (the mode and type token are written
before the name and digest are read); `panicked` is the
`unrecognized mode` panic; `line` is one complete pretty line. -/
inductive TrLineRes where
  | brk : List Nat → TrLineRes
  | panicked : TrLineRes
  | line : List Nat → List Nat → TrLineRes
deriving DecidableEq, Repr

/-- Tail of one `treeReader.Read` iteration after the mode switch wrote
`hdr`: read `name` up to the NUL, peek exactly 20 digest bytes, and
render `<hdr><40-hex><TAB><name>\x0a`. -/
def trLineAux (hdr : List Nat) (r1 : List Nat) : TrLineRes :=
  match readBytes 0 r1 with
  | none => .brk hdr
  | some (name0, r2) =>
    if r2.length < 20 then .brk hdr
    else .line (hdr ++ hexEncode (r2.take 20) ++ [9] ++ name0.dropLast ++ [10]) (r2.drop 20)

/-- One iteration of the `treeReader.Read` loop: read the binary mode up
to the space; a leading `1` renders as `blob`, a leading `4` re-pads
with `0` and renders as `tree`, anything else panics. -/
def trLine (input : List Nat) : TrLineRes :=
  match readBytes 32 input with
  | none => .brk []
  | some (mode, r1) =>
    match mode.head? with
    | some 49 => trLineAux (mode ++ strB "blob ") r1
    | some 52 => trLineAux (48 :: (mode ++ strB "tree ")) r1
    | _ => .panicked

/-- The whole `treeReader.Read` loop for a read buffer at least as large
as the produced text (the loop then runs to the end of the binary
stream). Structural on a fuel bound so that it evaluates in the kernel;
any `fuel ≥ input.length` is sufficient. `none` is the mode panic. -/
def trLoopF : Nat → List Nat → Option (List Nat)
  | 0, input =>
    match trLine input with
    | .brk t => some t
    | .panicked => none
    | .line _ _ => some []
  | fuel + 1, input =>
    match trLine input with
    | .brk t => some t
    | .panicked => none
    | .line t rest =>
      match trLoopF fuel rest with
      | none => none
      | some out => some (t ++ out)

/-- `treeReader.Read` of a whole binary tree payload into one
sufficiently large buffer: the pretty text. -/
def trRead (input : List Nat) : Option (List Nat) :=
  trLoopF input.length input

/-- A store binding list: keys are hash byte strings. -/
abbrev MemSt := List (List Nat × List Nat)

/-- The scan loop of `memStore.Object` over the map keys: first prefix
match is remembered, a second is the ambiguity error, none is the
not-found error. The empty list plays Go's `""` sentinel for `match`. -/
def memLoop (h : List Nat) : List (List Nat) → List Nat → Res (List Nat)
  | [], m =>
    if m = [] then .err (strB "object hash " ++ h ++ strB " does not exist")
    else .ok m
  | k :: ks, m =>
    if h.isPrefixOf k then
      if m ≠ [] then .err (strB "ambigious hash " ++ h)
      else memLoop h ks k
    else memLoop h ks m

/-- `memStore.Object`: exact map hit first, then the prefix scan; a
unique match is indexed back into the map. -/
def memObject (st : MemSt) (h : List Nat) : Res (List Nat) :=
  match lookupA st h with
  | some b => .ok b
  | none =>
    match memLoop h (st.map Prod.fst) [] with
    | .ok k => .ok ((lookupA st k).getD [])
    | .err e => .err e
    | .panicked => .panicked

/-- `memCloser.Close`: close the writer, then publish the staged bytes
under the digest unless that key already exists, which is an error. -/
def memClose (st : MemSt) (g : WState) : Res (MemSt × WState) :=
  match wClose g with
  | .ok g' =>
    let h := wHash g'
    if (lookupA st h).isSome then .err (strB "object with hash " ++ h ++ strB " exists")
    else .ok (st ++ [(h, g'.out)], g')
  | .err e => .err e
  | .panicked => .panicked

/-- A disk object directory: entries keyed by
(2-char bucket directory, remaining file name). A bucket directory is
modelled as existing exactly when it holds at least one object file. -/
abbrev DiskFS := List ((List Nat × List Nat) × List Nat)

/-- The `Readdirnames` scan loop of `DiskStore.Object`, identical in
shape to the in-memory scan but over the bucket's file names. -/
def diskLoop (h : List Nat) : List (List Nat) → List Nat → Res (List Nat)
  | [], m =>
    if m = [] then .err (strB "object hash " ++ h ++ strB " does not exist")
    else .ok m
  | e :: ns, m =>
    if (h.drop 2).isPrefixOf e then
      if m ≠ [] then .err (strB "ambigious hash " ++ h)
      else diskLoop h ns e
    else diskLoop h ns m

/-- `DiskStore.Object`: the source slices `hash[:2]` and `hash[2:]`
unconditionally, so a hash shorter than 2 bytes panics with a slice
bound violation. Otherwise: exact path open first, then list the bucket
directory (an error when it does not exist) and scan for prefix
matches. -/
def diskObject (fs : DiskFS) (h : List Nat) : Res (List Nat) :=
  if h.length < 2 then .panicked
  else
    let d := h.take 2
    match lookupA fs (d, h.drop 2) with
    | some b => .ok b
    | none =>
      let ns := (fs.filter (fun e => e.1.1 = d)).map (fun e => e.1.2)
      if ns = [] then .err (strB "open " ++ d ++ strB ": no such file or directory")
      else
        match diskLoop h ns [] with
        | .ok name => .ok ((lookupA fs (d, name)).getD [])
        | .err e => .err e
        | .panicked => .panicked

/-- `diskCloser.Close`: close the writer, then create the object file
with `O_EXCL`, which is an error when the path already exists. -/
def diskClose (fs : DiskFS) (g : WState) : Res (DiskFS × WState) :=
  match wClose g with
  | .ok g' =>
    let h := wHash g'
    let key := (h.take 2, h.drop 2)
    if (lookupA fs key).isSome then .err (strB "file exists")
    else .ok (fs ++ [(key, g'.out)], g')
  | .err e => .err e
  | .panicked => .panicked

/-- One user-level blob publish against the in-memory store, as in the
package example: `store.Writer()`, `WriteHeader(Blob, len(p))`,
`Write(p)`, `Close()`; the result is the new bindings and the digest the
writer reports. -/
def memPublish (st : MemSt) (p : List Nat) : Res (MemSt × List Nat) :=
  match writeHeader newWriter .Blob (Int.ofNat p.length) with
  | .ok (g, _) =>
    match wWrite g p with
    | .ok (g', _) =>
      match memClose st g' with
      | .ok (st', gc) => .ok (st', wHash gc)
      | .err e => .err e
      | .panicked => .panicked
    | .err e => .err e
    | .panicked => .panicked
  | .err e => .err e
  | .panicked => .panicked

/-- One user-level blob publish against the disk store. -/
def diskPublish (fs : DiskFS) (p : List Nat) : Res (DiskFS × List Nat) :=
  match writeHeader newWriter .Blob (Int.ofNat p.length) with
  | .ok (g, _) =>
    match wWrite g p with
    | .ok (g', _) =>
      match diskClose fs g' with
      | .ok (fs', gc) => .ok (fs', wHash gc)
      | .err e => .err e
      | .panicked => .panicked
    | .err e => .err e
    | .panicked => .panicked
  | .err e => .err e
  | .panicked => .panicked

theorem readBytes_cons_lt {d : Nat} {l tok rest : List Nat}
    (h : readBytes d l = some (tok, rest)) : rest.length < l.length := by
  induction l generalizing tok rest with
  | nil => simp [readBytes] at h
  | cons b bs ih =>
    simp only [readBytes] at h
    split at h
    · cases h
      simp
    · cases hr : readBytes d bs with
      | none => rw [hr] at h; cases h
      | some pr =>
        rw [hr] at h
        cases pr with
        | mk tk rs =>
          cases h
          have := ih hr
          simp
          omega

theorem readBytes_append {d : Nat} (a b : List Nat) (h : d ∉ a) :
    readBytes d (a ++ d :: b) = some (a ++ [d], b) := by
  induction a with
  | nil => simp [readBytes]
  | cons x xs ih =>
    have hx : ¬x = d := fun hc => h (hc ▸ List.mem_cons_self x xs)
    have hxs : d ∉ xs := fun hc => h (List.mem_cons_of_mem x hc)
    simp only [List.cons_append, readBytes, if_neg hx, List.append_eq, ih hxs]

theorem readBytes_none {d : Nat} (l : List Nat) (h : d ∉ l) :
    readBytes d l = none := by
  induction l with
  | nil => rfl
  | cons x xs ih =>
    have hx : ¬x = d := fun hc => h (hc ▸ List.mem_cons_self x xs)
    have hxs : d ∉ xs := fun hc => h (List.mem_cons_of_mem x hc)
    simp only [readBytes, if_neg hx, ih hxs]

theorem decBAux_zero (f : Nat) (acc : List Nat) : decBAux f 0 acc = 48 :: acc := by
  cases f <;> rfl

theorem decBAux_fuel : ∀ (n f1 f2 : Nat) (acc : List Nat), n ≤ f1 → n ≤ f2 →
    decBAux f1 n acc = decBAux f2 n acc := by
  intro n
  induction n using Nat.strong_induction_on with
  | _ n ih =>
    intro f1 f2 acc h1 h2
    cases n with
    | zero => rw [decBAux_zero, decBAux_zero]
    | succ m =>
      cases f1 with
      | zero => omega
      | succ g1 =>
        cases f2 with
        | zero => omega
        | succ g2 =>
          simp only [decBAux]
          split
          · rfl
          · rename_i hge
            have hd : (m + 1) / 10 < m + 1 := Nat.div_lt_self (by omega) (by omega)
            exact ih _ hd g1 g2 _ (by omega) (by omega)

theorem decBAux_acc : ∀ (n f : Nat) (acc : List Nat), n ≤ f →
    decBAux f n acc = decBAux f n [] ++ acc := by
  intro n
  induction n using Nat.strong_induction_on with
  | _ n ih =>
    intro f acc hf
    cases n with
    | zero => rw [decBAux_zero, decBAux_zero]; rfl
    | succ m =>
      cases f with
      | zero => omega
      | succ g =>
        simp only [decBAux]
        split
        · rfl
        · rename_i hge
          have hd : (m + 1) / 10 < m + 1 := Nat.div_lt_self (by omega) (by omega)
          have hle : (m + 1) / 10 ≤ g := by omega
          rw [ih _ hd g _ hle, ih _ hd g [48 + (m + 1) % 10] hle, List.append_assoc]
          rfl

theorem decB_step (n : Nat) :
    decB n = if n < 10 then [48 + n] else decB (n / 10) ++ [48 + n % 10] := by
  cases n with
  | zero => simp [decB, decBAux_zero]
  | succ m =>
    show decBAux (m + 1) (m + 1) [] = _
    simp only [decBAux]
    split
    · rfl
    · rename_i hge
      have hd : (m + 1) / 10 < m + 1 := Nat.div_lt_self (by omega) (by omega)
      rw [decBAux_acc _ m _ (by omega), decBAux_fuel ((m + 1) / 10) m ((m + 1) / 10) [] (by omega) le_rfl]
      rfl

theorem decB_digits : ∀ (n : Nat), ∀ c ∈ decB n, 48 ≤ c ∧ c ≤ 57 := by
  intro n
  induction n using Nat.strong_induction_on with
  | _ n ih =>
    intro c hc
    rw [decB_step] at hc
    by_cases h : n < 10
    · rw [if_pos h] at hc
      simp at hc
      omega
    · rw [if_neg h] at hc
      rcases List.mem_append.mp hc with h1 | h2
      · exact ih (n / 10) (Nat.div_lt_self (by omega) (by omega)) c h1
      · simp at h2
        have := Nat.mod_lt n (y := 10) (by omega)
        omega

theorem decB_ne_nil (n : Nat) : decB n ≠ [] := by
  rw [decB_step]
  split
  · simp
  · simp

theorem digitsValAux_append (a b : List Nat) (v : Nat) :
    digitsValAux (a ++ b) v =
      match digitsValAux a v with
      | some w => digitsValAux b w
      | none => none := by
  induction a generalizing v with
  | nil => rfl
  | cons c cs ih =>
    simp only [List.cons_append, digitsValAux]
    split
    · exact ih _
    · rfl

theorem digitsValAux_decB : ∀ (n v : Nat),
    digitsValAux (decB n) v = some (v * 10 ^ (decB n).length + n) := by
  intro n
  induction n using Nat.strong_induction_on with
  | _ n ih =>
    intro v
    rw [decB_step]
    by_cases h : n < 10
    · rw [if_pos h]
      simp [digitsValAux, h]
      omega
    · rw [if_neg h]
      rw [digitsValAux_append]
      have hd : n / 10 < n := Nat.div_lt_self (by omega) (by omega)
      rw [ih _ hd v]
      have hm : n % 10 < 10 := Nat.mod_lt n (by omega)
      simp only [digitsValAux]
      rw [if_pos (by omega)]
      simp only [digitsValAux, List.length_append, List.length_cons, List.length_nil]
      congr 1
      have hdm := Nat.div_add_mod n 10
      have : 48 + n % 10 - 48 = n % 10 := by omega
      rw [this, pow_succ]
      ring_nf
      omega

theorem digitsVal_decB (n : Nat) : digitsVal (decB n) = some n := by
  unfold digitsVal
  rw [if_neg (decB_ne_nil n), digitsValAux_decB]
  simp

theorem atoi_decB (n : Nat) : atoi (decB n) = some (n : Int) := by
  have hd := decB_digits n
  have hne := decB_ne_nil n
  cases hc : decB n with
  | nil => exact absurd hc hne
  | cons c cs =>
    have hcd : 48 ≤ c ∧ c ≤ 57 := hd c (hc ▸ List.mem_cons_self c cs)
    simp only [atoi]
    rw [if_neg (by omega), if_neg (by omega)]
    rw [← hc, digitsVal_decB]
    rfl

theorem decB_len : ∀ (n k : Nat), 1 ≤ k → n < 10 ^ k → (decB n).length ≤ k := by
  intro n
  induction n using Nat.strong_induction_on with
  | _ n ih =>
    intro k hk hn
    rw [decB_step]
    by_cases h : n < 10
    · rw [if_pos h]
      simpa using hk
    · rw [if_neg h]
      have hk2 : 2 ≤ k := by
        by_contra hc
        have : k = 1 := by omega
        rw [this] at hn
        simp at hn
        omega
      have hd : n / 10 < n := Nat.div_lt_self (by omega) (by omega)
      have h10 : (10 : Nat) ^ k = 10 ^ (k - 1) * 10 := by
        rw [← pow_succ]
        congr 1
        omega
      have hlt : n / 10 < 10 ^ (k - 1) := by
        rw [Nat.div_lt_iff_lt_mul (by omega)]
        omega
      have := ih _ hd (k - 1) (by omega) hlt
      simp only [List.length_append, List.length_cons, List.length_nil]
      omega

theorem hexChar_range {n : Nat} (h : n < 16) :
    (48 ≤ hexChar n ∧ hexChar n ≤ 57) ∨ (97 ≤ hexChar n ∧ hexChar n ≤ 102) := by
  unfold hexChar
  split <;> omega

theorem hexEncode_length (l : List Nat) : (hexEncode l).length = 2 * l.length := by
  induction l with
  | nil => rfl
  | cons b bs ih => simp [hexEncode, ih]; omega

theorem hexEncode_range {l : List Nat} (hl : ∀ b ∈ l, b < 256) :
    ∀ c ∈ hexEncode l, (48 ≤ c ∧ c ≤ 57) ∨ (97 ≤ c ∧ c ≤ 102) := by
  induction l with
  | nil => simp [hexEncode]
  | cons b bs ih =>
    intro c hc
    have hb : b < 256 := hl b (List.mem_cons_self b bs)
    have hbs : ∀ x ∈ bs, x < 256 := fun x hx => hl x (List.mem_cons_of_mem b hx)
    simp only [hexEncode, List.mem_cons] at hc
    rcases hc with h1 | h2 | h3
    · exact h1 ▸ hexChar_range (by omega)
    · exact h2 ▸ hexChar_range (by omega)
    · exact ih hbs c h3

theorem hexEncode_not_mem {l : List Nat} (hl : ∀ b ∈ l, b < 256) {d : Nat}
    (hd : d < 48 ∨ (57 < d ∧ d < 97) ∨ 102 < d) : d ∉ hexEncode l := by
  intro hmem
  rcases hexEncode_range hl d hmem with h | h <;> omega

theorem hexDigit_hexChar {x : Nat} (h : x < 16) : hexDigit (hexChar x) = some x := by
  unfold hexDigit hexChar
  by_cases hx : x < 10
  · rw [if_pos hx, if_pos (by omega)]
    simp
  · rw [if_neg hx, if_neg (by omega), if_pos (by omega)]
    congr 1
    omega

theorem hexDecodePairs_encode {l : List Nat} (hl : ∀ b ∈ l, b < 256) :
    hexDecodePairs (hexEncode l) = (l, true) := by
  induction l with
  | nil => rfl
  | cons b bs ih =>
    have hb : b < 256 := hl b (List.mem_cons_self b bs)
    have hbs : ∀ x ∈ bs, x < 256 := fun x hx => hl x (List.mem_cons_of_mem b hx)
    simp only [hexEncode, hexDecodePairs]
    rw [hexDigit_hexChar (by omega), hexDigit_hexChar (Nat.mod_lt b (by omega))]
    simp only [ih hbs]
    congr 1
    simp
    omega

theorem u8_lt (n : Nat) : u8 n < 256 := Nat.mod_lt _ (by omega)

theorem be4b_lt (n : Nat) : ∀ b ∈ be4b n, b < 256 := by
  intro b hb
  simp only [be4b, List.mem_cons, List.not_mem_nil, or_false] at hb
  rcases hb with h | h | h | h <;> exact h ▸ u8_lt _

theorem sha1_length (m : List Nat) : (sha1 m).length = 20 := by
  simp [sha1, be4b]

theorem sha1_lt (m : List Nat) : ∀ b ∈ sha1 m, b < 256 := by
  intro b hb
  simp only [sha1, List.mem_append] at hb
  rcases hb with ((((h | h) | h) | h) | h) <;> exact be4b_lt _ b h

theorem wHash_length (g : WState) : (wHash g).length = 40 := by
  unfold wHash
  rw [hexEncode_length, sha1_length]

theorem wHash_hexdigits (g : WState) :
    ∀ c ∈ wHash g, (48 ≤ c ∧ c ≤ 57) ∨ (97 ≤ c ∧ c ≤ 102) :=
  hexEncode_range (sha1_lt g.out)

/-- One tree entry as displayed in pretty form: the displayed mode
digits, the entry name, and the 20 raw digest bytes. -/
structure TEntry where
  mode : List Nat
  name : List Nat
  dig : List Nat
deriving DecidableEq, Repr

/-- The type token a pretty line carries, determined by the mode's first
digit exactly as the decode direction regenerates it. -/
def tokBytes (e : TEntry) : List Nat :=
  if e.mode.head? = some 49 then strB "blob" else strB "tree"

/-- The pretty rendering
`<mode><SP><type-token><SP><40-hex-digest><TAB><name>\x0a` of one entry. -/
def prettyLine (e : TEntry) : List Nat :=
  e.mode ++ 32 :: (tokBytes e ++ 32 :: (hexEncode e.dig ++ 9 :: (e.name ++ [10])))

/-- The mode as stored in binary form: one leading `0` stripped. -/
def binMode (e : TEntry) : List Nat :=
  if e.mode.head? = some 48 then e.mode.tail else e.mode

/-- The binary rendering `<mode><SP><name>\x00<20 raw bytes>` of one
entry. -/
def binEntry (e : TEntry) : List Nat :=
  (binMode e ++ [32]) ++ (e.name ++ [0]) ++ e.dig

/-- Well-formedness of a pretty tree entry: a 20-byte digest, no
delimiter bytes inside mode or name, and a mode that is either a
blob-style mode starting with `1` or a tree-style mode starting with the
redundant leading zero `04`. -/
def entryWF (e : TEntry) : Prop :=
  e.dig.length = 20 ∧ (∀ b ∈ e.dig, b < 256) ∧
  32 ∉ e.mode ∧ 0 ∉ e.name ∧ 10 ∉ e.name ∧
  (e.mode.head? = some 49 ∨ e.mode.take 2 = [48, 52])

instance (e : TEntry) : Decidable (entryWF e) := by
  unfold entryWF
  infer_instance

theorem entryWF_mode_shape {e : TEntry} (h : entryWF e) :
    (∃ r, e.mode = 49 :: r) ∨ (∃ r, e.mode = 48 :: 52 :: r) := by
  rcases h.2.2.2.2.2 with h1 | h2
  · left
    cases hm : e.mode with
    | nil => rw [hm] at h1; cases h1
    | cons a t =>
      rw [hm] at h1
      simp at h1
      exact ⟨t, by rw [h1]⟩
  · right
    cases hm : e.mode with
    | nil => rw [hm] at h2; cases h2
    | cons a t =>
      cases t with
      | nil => rw [hm] at h2; simp [List.take] at h2
      | cons b t2 =>
        rw [hm] at h2
        simp [List.take] at h2
        exact ⟨t2, by rw [h2.1, h2.2]⟩

theorem twLine_pretty {e : TEntry} (rest sum : List Nat) (he : entryWF e)
    (hs : sum.length = 20) :
    twLine (prettyLine e ++ rest) sum = .line (binEntry e) rest e.dig := by
  obtain ⟨hdl, hdb, hm32, hn0, hn10, _⟩ := he
  have harr : prettyLine e ++ rest =
      e.mode ++ 32 :: (tokBytes e ++ 32 :: (hexEncode e.dig ++ 9 :: (e.name ++ 10 :: rest))) := by
    simp [prettyLine, List.append_assoc]
  have htok32 : (32 : Nat) ∉ tokBytes e := by
    unfold tokBytes
    split <;> decide
  have hhex9 : (9 : Nat) ∉ hexEncode e.dig :=
    hexEncode_not_mem hdb (by omega)
  unfold twLine
  rw [harr, readBytes_append _ _ hm32]
  simp only
  rw [readBytes_append _ _ htok32]
  simp only
  rw [readBytes_append _ _ hhex9]
  simp only [List.dropLast_concat]
  rw [hexDecodePairs_encode hdb]
  simp only [hdl]
  rw [if_neg (by omega)]
  simp only [List.drop_eq_nil_of_le (le_of_eq hs), List.append_nil]
  simp only [if_true]
  rw [readBytes_append _ _ hn10]
  simp only [List.dropLast_concat]
  congr 1
  unfold binEntry binMode
  rcases entryWF_mode_shape ⟨hdl, hdb, hm32, hn0, hn10, by assumption⟩ with ⟨r, hr⟩ | ⟨r, hr⟩
  · rw [hr]
    simp
  · rw [hr]
    simp

theorem strB_blobSp : strB "blob " = [98, 108, 111, 98, 32] := by decide

theorem strB_treeSp : strB "tree " = [116, 114, 101, 101, 32] := by decide

theorem strB_blob : strB "blob" = [98, 108, 111, 98] := by decide

theorem strB_tree : strB "tree" = [116, 114, 101, 101] := by decide

theorem trLineAux_entry {e : TEntry} (hdr rest : List Nat) (hn0 : 0 ∉ e.name)
    (hdl : e.dig.length = 20) :
    trLineAux hdr (e.name ++ 0 :: (e.dig ++ rest)) =
      .line (hdr ++ hexEncode (e.dig) ++ [9] ++ e.name ++ [10]) rest := by
  unfold trLineAux
  rw [readBytes_append _ _ hn0]
  simp only [List.dropLast_concat]
  rw [if_neg (by simp [hdl]), List.take_left' hdl, List.drop_left' hdl]

theorem trLine_bin {e : TEntry} (rest : List Nat) (he : entryWF e) :
    trLine (binEntry e ++ rest) = .line (prettyLine e) rest := by
  obtain ⟨hdl, hdb, hm32, hn0, hn10, hmode⟩ := he
  have hbm32 : (32 : Nat) ∉ binMode e := by
    unfold binMode
    split
    · exact fun hc => hm32 (List.mem_of_mem_tail hc)
    · exact hm32
  have harr : binEntry e ++ rest =
      binMode e ++ 32 :: (e.name ++ 0 :: (e.dig ++ rest)) := by
    simp [binEntry, List.append_assoc]
  unfold trLine
  rw [harr, readBytes_append _ _ hbm32]
  simp only
  rcases entryWF_mode_shape ⟨hdl, hdb, hm32, hn0, hn10, hmode⟩ with ⟨r, hr⟩ | ⟨r, hr⟩
  · have hb : binMode e = 49 :: r := by
      unfold binMode
      rw [hr]
      simp
    rw [hb]
    simp only [List.cons_append, List.head?_cons]
    rw [trLineAux_entry _ _ hn0 hdl]
    congr 1
    simp [prettyLine, tokBytes, hr, strB_blobSp, strB_blob, List.append_assoc]
  · have hb : binMode e = 52 :: r := by
      unfold binMode
      rw [hr]
      simp
    rw [hb]
    simp only [List.cons_append, List.head?_cons]
    rw [trLineAux_entry _ _ hn0 hdl]
    congr 1
    simp [prettyLine, tokBytes, hr, strB_treeSp, strB_tree, List.append_assoc]

theorem prettyLine_pos (e : TEntry) : 0 < (prettyLine e).length := by
  simp [prettyLine]

theorem binMode_le (e : TEntry) : (binMode e).length ≤ e.mode.length := by
  unfold binMode
  split
  · cases e.mode <;> simp
  · exact le_rfl

theorem binEntry_le {e : TEntry} (he : entryWF e) :
    (binEntry e).length ≤ (prettyLine e).length := by
  have h1 := binMode_le e
  have h2 : (tokBytes e).length = 4 := by
    unfold tokBytes
    split <;> decide
  have h3 : (hexEncode e.dig).length = 40 := by
    rw [hexEncode_length, he.1]
  simp only [binEntry, prettyLine, List.length_append, List.length_cons, h2, h3, he.1]
  simp
  omega

theorem twLoopF_join : ∀ (es : List TEntry) (fuel : Nat) (sum : List Nat),
    (∀ e ∈ es, entryWF e) → sum.length = 20 →
    ((es.map prettyLine).flatten).length ≤ fuel →
    twLoopF fuel ((es.map prettyLine).flatten) sum =
      some ((es.map binEntry).flatten, es.foldl (fun _ e => e.dig) sum) := by
  intro es
  induction es with
  | nil =>
    intro fuel sum _ _ _
    cases fuel <;> rfl
  | cons e es ih =>
    intro fuel sum hwf hs hfuel
    have he := hwf e (List.mem_cons_self e es)
    have hes : ∀ x ∈ es, entryWF x := fun x hx => hwf x (List.mem_cons_of_mem e hx)
    simp only [List.map_cons, List.flatten_cons] at hfuel ⊢
    rw [List.length_append] at hfuel
    cases fuel with
    | zero =>
      exfalso
      have := prettyLine_pos e
      omega
    | succ f =>
      have hlen : ((es.map prettyLine).flatten).length ≤ f := by
        have := prettyLine_pos e
        omega
      simp only [twLoopF]
      rw [twLine_pretty _ _ he hs]
      dsimp only
      rw [ih f e.dig hes he.1 hlen]
      rfl

theorem trLoopF_join : ∀ (es : List TEntry) (fuel : Nat),
    (∀ e ∈ es, entryWF e) →
    ((es.map binEntry).flatten).length ≤ fuel →
    trLoopF fuel ((es.map binEntry).flatten) =
      some ((es.map prettyLine).flatten) := by
  intro es
  induction es with
  | nil =>
    intro fuel _ _
    cases fuel <;> rfl
  | cons e es ih =>
    intro fuel hwf hfuel
    have he := hwf e (List.mem_cons_self e es)
    have hes : ∀ x ∈ es, entryWF x := fun x hx => hwf x (List.mem_cons_of_mem e hx)
    simp only [List.map_cons, List.flatten_cons] at hfuel ⊢
    rw [List.length_append] at hfuel
    cases fuel with
    | zero =>
      exfalso
      have : 0 < (binEntry e).length := by simp [binEntry]
      omega
    | succ f =>
      have hlen : ((es.map binEntry).flatten).length ≤ f := by
        have : 0 < (binEntry e).length := by simp [binEntry]
        omega
      simp only [trLoopF]
      rw [trLine_bin _ he]
      dsimp only
      rw [ih f hes hlen]

theorem flatten_bin_le {es : List TEntry} (hwf : ∀ e ∈ es, entryWF e) :
    ((es.map binEntry).flatten).length ≤ ((es.map prettyLine).flatten).length := by
  induction es with
  | nil => simp
  | cons e es ih =>
    have he := hwf e (List.mem_cons_self e es)
    have hes : ∀ x ∈ es, entryWF x := fun x hx => hwf x (List.mem_cons_of_mem e hx)
    simp only [List.map_cons, List.flatten_cons, List.length_append]
    have := binEntry_le he
    have := ih hes
    omega

theorem typeStr_no_space (t : ObjType) : (32 : Nat) ∉ typeStr t := by
  cases t <;> decide

theorem parseType_typeStr (t : ObjType) : parseType (typeStr t) = some t := by
  cases t <;> decide

theorem decB_no_nul (n : Nat) : (0 : Nat) ∉ decB n := by
  intro hc
  have := decB_digits n 0 hc
  omega

theorem readObject_header (t : ObjType) (n : Nat) (D : List Nat)
    (hlen : (headerBytes t n).length ≤ 28) :
    readObject (headerBytes t n ++ D) = .ok (t, (n : Int), D) := by
  set A := headerBytes t n with hA
  set m := 28 - A.length with hm
  have h28 : 28 = A.length + m := by omega
  have hwin : (A ++ D).take 28 = A ++ D.take m := by
    rw [h28, List.take_append]
  have hdrop : (A ++ D).drop 28 = D.drop m := by
    rw [h28, List.drop_append]
  have harr : A ++ D.take m =
      typeStr t ++ 32 :: (decB n ++ 0 :: D.take m) := by
    simp [hA, headerBytes, List.append_assoc]
  unfold readObject
  dsimp only
  rw [hwin, hdrop, harr, readBytes_append _ _ (typeStr_no_space t)]
  simp only [List.dropLast_concat]
  rw [parseType_typeStr]
  simp only
  rw [readBytes_append _ _ (decB_no_nul n)]
  simp only [List.dropLast_concat]
  rw [atoi_decB]
  simp only
  rw [List.take_append_drop]

/-- C1: writing a byte sequence `D` as a Blob with its exact length
emits the framed bytes `blob <len>\x00` followed by `D` through both
compression and the digest accumulator; reading that object back
recovers the Blob type, the declared length and exactly `D`; and the
digest reported by `Hash` is the SHA-1 of the framed byte sequence,
rendered as 40 lowercase hex characters. The length bound reflects the
reader's 28-byte header window, ample for any realizable length. -/
theorem blob_roundtrip (D : List Nat) (hlen : D.length < 10 ^ 22) :
    ∃ g1 g2 g3 : WState,
      writeHeader newWriter .Blob (Int.ofNat D.length) =
        .ok (g1, (headerBytes .Blob D.length).length) ∧
      wWrite g1 D = .ok (g2, D.length) ∧
      wClose g2 = .ok g3 ∧
      g3.out = headerBytes .Blob D.length ++ D ∧
      readObject g3.out = .ok (.Blob, (D.length : Int), D) ∧
      wHash g3 = hexEncode (sha1 (headerBytes .Blob D.length ++ D)) ∧
      (wHash g3).length = 40 ∧
      (∀ c ∈ wHash g3, (48 ≤ c ∧ c ≤ 57) ∨ (97 ≤ c ∧ c ≤ 102)) := by
  have hhdr : (headerBytes .Blob D.length).length ≤ 28 := by
    have hd := decB_len D.length 22 (by omega) hlen
    simp only [headerBytes, List.length_append, List.length_cons]
    have : (typeStr .Blob).length = 4 := by decide
    simp [this]
    omega
  have hwh : writeHeader newWriter .Blob (Int.ofNat D.length) =
      .ok (⟨true, .Blob, none, [], headerBytes .Blob D.length⟩,
           (headerBytes .Blob D.length).length) := by
    unfold writeHeader newWriter
    simp only [Bool.false_eq_true, if_false]
    rw [if_neg (by simp)]
    simp [Int.toNat_ofNat]
  refine ⟨⟨true, .Blob, none, [], headerBytes .Blob D.length⟩,
    ⟨true, .Blob, none, [], headerBytes .Blob D.length ++ D⟩,
    ⟨true, .Blob, none, [], headerBytes .Blob D.length ++ D⟩,
    hwh, rfl, rfl, rfl, ?_, rfl, wHash_length _, wHash_hexdigits _⟩
  show readObject (headerBytes .Blob D.length ++ D) = _
  rw [readObject_header _ _ _ hhdr]

theorem blob_roundtrip_witness :
    (strB "hello, world").length < 10 ^ 22 ∧
    (∃ g1 g2 g3 : WState,
      writeHeader newWriter .Blob (Int.ofNat (strB "hello, world").length) =
        .ok (g1, (headerBytes .Blob (strB "hello, world").length).length) ∧
      wWrite g1 (strB "hello, world") = .ok (g2, (strB "hello, world").length) ∧
      wClose g2 = .ok g3 ∧
      g3.out = headerBytes .Blob (strB "hello, world").length ++ strB "hello, world" ∧
      readObject g3.out =
        .ok (.Blob, ((strB "hello, world").length : Int), strB "hello, world") ∧
      wHash g3 = hexEncode (sha1 (headerBytes .Blob (strB "hello, world").length ++ strB "hello, world")) ∧
      (wHash g3).length = 40 ∧
      (∀ c ∈ wHash g3, (48 ≤ c ∧ c ≤ 57) ∨ (97 ≤ c ∧ c ≤ 102))) :=
  ⟨by decide, blob_roundtrip (strB "hello, world") (by decide)⟩

/-- C2: for every well-formed sequence of pretty tree lines, one
`treeWriter.Write` of the whole text flushes exactly the binary
tree-entry rendering of the sequence, and `treeReader.Read` of that
binary form reproduces the pretty text exactly; a redundant leading
zero on a tree mode is stripped by the encoder and restored by the
decoder. -/
theorem tree_transcode_roundtrip (es : List TEntry) (hwf : ∀ e ∈ es, entryWF e) :
    twWrite twInit ((es.map prettyLine).flatten) =
      some (⟨[], [], es.foldl (fun _ e => e.dig) (List.replicate 20 0)⟩,
            (es.map binEntry).flatten) ∧
    trRead ((es.map binEntry).flatten) = some ((es.map prettyLine).flatten) := by
  constructor
  · unfold twWrite twInit twLoop
    simp only [List.nil_append]
    rw [twLoopF_join es _ _ hwf (by simp) le_rfl]
    simp only
    have hle := flatten_bin_le hwf
    rw [List.take_of_length_le hle, List.drop_eq_nil_of_le hle]
  · unfold trRead
    exact trLoopF_join es _ hwf le_rfl

/-- A concrete well-formed two-entry fixture: one blob entry and one
tree entry whose displayed mode carries the redundant leading zero. -/
def fixEntries : List TEntry :=
  [⟨strB "040000", strB "sub", [140, 1, 216, 154, 224, 99, 17, 131, 78, 228,
     177, 250, 178, 240, 65, 77, 53, 240, 17, 2]⟩,
   ⟨strB "100644", strB "hello.txt", [140, 1, 216, 154, 224, 99, 17, 131, 78, 228,
     177, 250, 178, 240, 65, 77, 53, 240, 17, 2]⟩]

theorem tree_transcode_roundtrip_witness :
    (∀ e ∈ fixEntries, entryWF e) ∧
    (twWrite twInit ((fixEntries.map prettyLine).flatten) =
      some (⟨[], [], fixEntries.foldl (fun _ e => e.dig) (List.replicate 20 0)⟩,
            (fixEntries.map binEntry).flatten) ∧
     trRead ((fixEntries.map binEntry).flatten) =
       some ((fixEntries.map prettyLine).flatten)) :=
  ⟨by decide, tree_transcode_roundtrip fixEntries (by decide)⟩

theorem sha1_empty_hex :
    hexEncode (sha1 []) = strB "da39a3ee5e6b4b0d3255bfef95601890afd80709" := by decide

theorem wWriteMany_spool_inv : ∀ (ps : List (List Nat)) (g g' : WState),
    wWriteMany g ps = .ok g' → g.tw.isSome = true →
    g'.out = g.out ∧ g'.tw.isSome = true ∧ g'.wroteHeader = g.wroteHeader ∧ g'.t = g.t := by
  intro ps
  induction ps with
  | nil =>
    intro g g' h htw
    unfold wWriteMany at h
    cases h
    exact ⟨rfl, htw, rfl, rfl⟩
  | cons p ps ih =>
    intro g g' h htw
    unfold wWriteMany at h
    cases hg : g.tw with
    | none => rw [hg] at htw; cases htw
    | some st =>
      by_cases hw : g.wroteHeader = false
      · unfold wWrite at h
        rw [if_pos hw] at h
        cases h
      · unfold wWrite at h
        rw [if_neg hw, hg] at h
        dsimp only at h
        cases htww : twWrite st p with
        | none => rw [htww] at h; cases h
        | some pr =>
          rw [htww] at h
          obtain ⟨st2, fl⟩ := pr
          simp only at h
          have := ih _ _ h (by simp)
          simpa using this

/-- C7: calling `Write` before `WriteHeader` returns an error (and, the
model being functional, no state is produced so no data is written);
a second `WriteHeader` on any writer that already wrote its header
returns an error and emits nothing. -/
theorem writer_protocol_order :
    (∀ (g : WState) (p : List Nat), g.wroteHeader = false →
      wWrite g p = .err (strB "Must call WriteHeader before calling Write.")) ∧
    (∀ (g : WState) (t : ObjType) (s : Int) (g1 : WState) (n : Nat) (t2 : ObjType) (s2 : Int),
      writeHeader g t s = .ok (g1, n) →
      writeHeader g1 t2 s2 = .err (strB "Header already written.")) := by
  constructor
  · intro g p h
    unfold wWrite
    rw [if_pos h]
  · intro g t s g1 n t2 s2 h
    have hg1 : g1.wroteHeader = true := by
      unfold writeHeader at h
      by_cases hw : g.wroteHeader
      · rw [if_pos hw] at h
        cases h
      · rw [if_neg hw] at h
        split at h <;> (cases h; rfl)
    unfold writeHeader
    rw [if_pos hg1]

theorem writer_protocol_order_witness :
    wWrite newWriter (strB "x") = .err (strB "Must call WriteHeader before calling Write.") ∧
    writeHeader ⟨true, .Blob, none, [], headerBytes .Blob 1⟩ .Blob 1 =
      .err (strB "Header already written.") :=
  ⟨writer_protocol_order.1 newWriter (strB "x") rfl,
   writer_protocol_order.2 newWriter .Blob 1 ⟨true, .Blob, none, [], headerBytes .Blob 1⟩
     (headerBytes .Blob 1).length .Blob 1 (by decide)⟩

/-- C4: a writer opened with type Tree or a negative declared size
spools `Write` payloads: nothing reaches compression or the digest
before `Close` (`out` stays empty), and `Close` emits a header whose
decimal length field is exactly the spooled byte count, followed by the
spooled bytes, through compression and the digest accumulator. -/
theorem close_measures_spool (t : ObjType) (s : Int) (ps : List (List Nat))
    (g1 : WState) (n : Nat) (g2 : WState)
    (hts : t = .Tree ∨ s < 0)
    (h1 : writeHeader newWriter t s = .ok (g1, n))
    (h2 : wWriteMany g1 ps = .ok g2) :
    g1.out = [] ∧ g2.out = [] ∧ g2.t = t ∧
    ∃ g3, wClose g2 = .ok g3 ∧
      g3.out = typeStr t ++ [32] ++ decB g2.tmp.length ++ [0] ++ g2.tmp ∧
      digitsVal (decB g2.tmp.length) = some g2.tmp.length := by
  have h1' : g1 = ⟨true, t, some twInit, [], []⟩ := by
    unfold writeHeader newWriter at h1
    rw [if_neg (by simp), if_pos hts] at h1
    cases h1
    rfl
  subst h1'
  obtain ⟨hout, htw, _, ht⟩ := wWriteMany_spool_inv ps _ g2 h2 (by simp)
  simp only at hout ht
  obtain ⟨st2, hst2⟩ := Option.isSome_iff_exists.mp htw
  refine ⟨rfl, hout, ht, ?_⟩
  unfold wClose
  rw [hst2]
  refine ⟨_, rfl, ?_, digitsVal_decB _⟩
  simp [hout, ht, headerBytes, List.append_assoc]

theorem close_measures_spool_witness :
    ((.Tree : ObjType) = .Tree ∨ (0 : Int) < 0) ∧
    writeHeader newWriter .Tree 0 = .ok (⟨true, .Tree, some twInit, [], []⟩, 0) ∧
    wWriteMany ⟨true, .Tree, some twInit, [], []⟩ [strB "100644 blo"] =
      .ok ⟨true, .Tree, some twInit, [], []⟩ ∧
    ((⟨true, .Tree, some twInit, [], []⟩ : WState).out = [] ∧
     (⟨true, .Tree, some twInit, [], []⟩ : WState).out = [] ∧
     (⟨true, .Tree, some twInit, [], []⟩ : WState).t = .Tree ∧
     ∃ g3, wClose ⟨true, .Tree, some twInit, [], []⟩ = .ok g3 ∧
       g3.out = typeStr .Tree ++ [32] ++
         decB (⟨true, .Tree, some twInit, [], []⟩ : WState).tmp.length ++ [0] ++
         (⟨true, .Tree, some twInit, [], []⟩ : WState).tmp ∧
       digitsVal (decB (⟨true, .Tree, some twInit, [], []⟩ : WState).tmp.length) =
         some (⟨true, .Tree, some twInit, [], []⟩ : WState).tmp.length) :=
  ⟨Or.inl rfl, by decide, by decide,
   close_measures_spool .Tree 0 [strB "100644 blo"] ⟨true, .Tree, some twInit, [], []⟩ 0
     ⟨true, .Tree, some twInit, [], []⟩ (Or.inl rfl) (by decide) (by decide)⟩

/-- C9: `Hash` is a total function of the bytes fed to the digest
accumulator so far. On the spooling path nothing reaches the
accumulator before `Close`, so `Hash` then returns the SHA-1 of the
empty string; after `Close` it returns the digest of the framed
object. -/
theorem hash_lifecycle (t : ObjType) (s : Int) (ps : List (List Nat))
    (g1 : WState) (n : Nat) (g2 : WState)
    (hts : t = .Tree ∨ s < 0)
    (h1 : writeHeader newWriter t s = .ok (g1, n))
    (h2 : wWriteMany g1 ps = .ok g2) :
    (∀ g : WState, wHash g = hexEncode (sha1 g.out) ∧ (wHash g).length = 40) ∧
    wHash g2 = strB "da39a3ee5e6b4b0d3255bfef95601890afd80709" ∧
    (∀ g3, wClose g2 = .ok g3 →
      wHash g3 = hexEncode (sha1 (headerBytes t g2.tmp.length ++ g2.tmp))) := by
  have h1' : g1 = ⟨true, t, some twInit, [], []⟩ := by
    unfold writeHeader newWriter at h1
    rw [if_neg (by simp), if_pos hts] at h1
    cases h1
    rfl
  subst h1'
  obtain ⟨hout, htw, _, ht⟩ := wWriteMany_spool_inv ps _ g2 h2 (by simp)
  simp only at hout ht
  obtain ⟨st2, hst2⟩ := Option.isSome_iff_exists.mp htw
  refine ⟨fun g => ⟨rfl, wHash_length g⟩, ?_, ?_⟩
  · unfold wHash
    rw [hout]
    exact sha1_empty_hex
  · intro g3 hc
    unfold wClose at hc
    rw [hst2] at hc
    cases hc
    unfold wHash
    simp [hout, ht]

theorem hash_lifecycle_witness :
    ((.Tree : ObjType) = .Tree ∨ (-1 : Int) < 0) ∧
    writeHeader newWriter .Tree (-1) = .ok (⟨true, .Tree, some twInit, [], []⟩, 0) ∧
    wWriteMany ⟨true, .Tree, some twInit, [], []⟩ [strB "100644 blo"] =
      .ok ⟨true, .Tree, some twInit, [], []⟩ ∧
    wHash ⟨true, .Tree, some twInit, [], []⟩ =
      strB "da39a3ee5e6b4b0d3255bfef95601890afd80709" :=
  ⟨Or.inl rfl, by decide, by decide,
   (hash_lifecycle .Tree (-1) [strB "100644 blo"] ⟨true, .Tree, some twInit, [], []⟩ 0
     ⟨true, .Tree, some twInit, [], []⟩ (Or.inl rfl) (by decide) (by decide)).2.1⟩

theorem memLoop_nomatch (h : List Nat) : ∀ (ks : List (List Nat)) (m : List Nat),
    (∀ k ∈ ks, h.isPrefixOf k = false) →
    memLoop h ks m =
      if m = [] then .err (strB "object hash " ++ h ++ strB " does not exist")
      else .ok m := by
  intro ks
  induction ks with
  | nil => intro m _; rfl
  | cons a ks ih =>
    intro m hall
    have ha := hall a (List.mem_cons_self a ks)
    unfold memLoop
    rw [ha]
    simp only [Bool.false_eq_true, if_false]
    exact ih m (fun k hk => hall k (List.mem_cons_of_mem a hk))

theorem memLoop_hit (h : List Nat) : ∀ (ks : List (List Nat)) (m : List Nat),
    m ≠ [] → (∃ k ∈ ks, h.isPrefixOf k = true) →
    memLoop h ks m = .err (strB "ambigious hash " ++ h) := by
  intro ks
  induction ks with
  | nil =>
    intro m _ hex
    simp at hex
  | cons a ks ih =>
    intro m hm hex
    unfold memLoop
    by_cases ha : h.isPrefixOf a = true
    · rw [if_pos ha, if_pos hm]
    · rw [if_neg ha]
      apply ih m hm
      rcases hex with ⟨k, hk, hpref⟩
      rcases List.mem_cons.mp hk with rfl | hk2
      · exact absurd hpref ha
      · exact ⟨k, hk2, hpref⟩

theorem memLoop_single (h k : List Nat) (hk : k ≠ []) : ∀ (ks : List (List Nat)),
    ks.filter (fun x => h.isPrefixOf x) = [k] →
    memLoop h ks [] = .ok k := by
  intro ks
  induction ks with
  | nil =>
    intro hf
    simp at hf
  | cons a ks ih =>
    intro hf
    rw [List.filter_cons] at hf
    unfold memLoop
    by_cases ha : h.isPrefixOf a = true
    · rw [if_pos ha] at hf
      have hak : a = k ∧ ks.filter (fun x => h.isPrefixOf x) = [] := by
        exact ⟨by injection hf, by injection hf⟩
      obtain ⟨rfl, hrest⟩ := hak
      rw [if_pos ha, if_neg (by simp)]
      rw [List.filter_eq_nil_iff] at hrest
      rw [memLoop_nomatch h ks a (fun k' hk' => by
        have := hrest k' hk'
        simp only [Bool.not_eq_true] at this
        exact this)]
      rw [if_neg hk]
    · rw [if_neg ha] at hf
      rw [if_neg ha]
      exact ih hf

theorem memLoop_two (h : List Nat) : ∀ (ks : List (List Nat)),
    (∀ k ∈ ks, k ≠ []) →
    2 ≤ (ks.filter (fun x => h.isPrefixOf x)).length →
    memLoop h ks [] = .err (strB "ambigious hash " ++ h) := by
  intro ks
  induction ks with
  | nil =>
    intro _ h2
    simp at h2
  | cons a ks ih =>
    intro hne h2
    rw [List.filter_cons] at h2
    unfold memLoop
    by_cases ha : h.isPrefixOf a = true
    · rw [if_pos ha] at h2
      rw [if_pos ha, if_neg (by simp)]
      apply memLoop_hit h ks a (hne a (List.mem_cons_self a ks))
      have h1 : 1 ≤ (ks.filter (fun x => h.isPrefixOf x)).length := by
        simp only [List.length_cons] at h2
        omega
      have hfne : ks.filter (fun x => h.isPrefixOf x) ≠ [] := by
        intro hc
        rw [hc] at h1
        simp at h1
      obtain ⟨k, hk⟩ := List.exists_mem_of_ne_nil _ hfne
      exact ⟨k, (List.mem_filter.mp hk).1, (List.mem_filter.mp hk).2⟩
    · rw [if_neg ha] at h2
      rw [if_neg ha]
      exact ih (fun k hk => hne k (List.mem_cons_of_mem a hk)) h2

/-- C6: abbreviated hash resolution. Exact lookup wins; otherwise the
prefix scan classifies by match count: zero is not-found, one opens that
object, two or more is the ambiguity error naming the queried hash. On
disk, two objects sharing a 3-character digest prefix but diverging at
the 4th character make a 3-character query ambiguous while a 4-character
unambiguous query returns the correct object. -/
theorem object_resolution :
    (∀ (st : MemSt) (h b : List Nat), lookupA st h = some b → memObject st h = .ok b) ∧
    (∀ (st : MemSt) (h : List Nat), lookupA st h = none →
      (st.map Prod.fst).filter (fun x => h.isPrefixOf x) = [] →
      memObject st h = .err (strB "object hash " ++ h ++ strB " does not exist")) ∧
    (∀ (st : MemSt) (h k : List Nat), lookupA st h = none → k ≠ [] →
      (st.map Prod.fst).filter (fun x => h.isPrefixOf x) = [k] →
      memObject st h = .ok ((lookupA st k).getD [])) ∧
    (∀ (st : MemSt) (h : List Nat), lookupA st h = none →
      (∀ k ∈ st.map Prod.fst, k ≠ []) →
      2 ≤ ((st.map Prod.fst).filter (fun x => h.isPrefixOf x)).length →
      memObject st h = .err (strB "ambigious hash " ++ h)) ∧
    (∀ (fs : DiskFS) (h b : List Nat), 2 ≤ h.length →
      lookupA fs (h.take 2, h.drop 2) = some b → diskObject fs h = .ok b) ∧
    (∀ (b2 v1 v2 t1 t2 : List Nat) (c3 c4 c4' : Nat),
      b2.length = 2 → c4 ≠ c4' →
      diskObject [((b2, c3 :: c4 :: t1), v1), ((b2, c3 :: c4' :: t2), v2)] (b2 ++ [c3]) =
        .err (strB "ambigious hash " ++ (b2 ++ [c3])) ∧
      diskObject [((b2, c3 :: c4 :: t1), v1), ((b2, c3 :: c4' :: t2), v2)] (b2 ++ [c3, c4]) =
        .ok v1) := by
  refine ⟨?_, ?_, ?_, ?_, ?_, ?_⟩
  · intro st h b hl
    unfold memObject
    rw [hl]
  · intro st h hl hf
    unfold memObject
    rw [hl]
    dsimp only
    rw [List.filter_eq_nil_iff] at hf
    rw [memLoop_nomatch h _ [] (fun k hk => by
      have := hf k hk
      simp only [Bool.not_eq_true] at this
      exact this)]
    rw [if_pos rfl]
  · intro st h k hl hk hf
    unfold memObject
    rw [hl]
    dsimp only
    rw [memLoop_single h k hk _ hf]
  · intro st h hl hne h2
    unfold memObject
    rw [hl]
    dsimp only
    rw [memLoop_two h _ hne h2]
  · intro fs h b hlen hl
    unfold diskObject
    rw [if_neg (by omega)]
    dsimp only
    rw [hl]
  · intro b2 v1 v2 t1 t2 c3 c4 c4' hb2 hne
    have hlen3 : ¬(b2 ++ [c3]).length < 2 := by simp [hb2]
    have hlen4 : ¬(b2 ++ [c3, c4]).length < 2 := by simp [hb2]
    constructor
    · unfold diskObject
      rw [if_neg hlen3, List.take_left' hb2, List.drop_left' hb2]
      dsimp only
      have hex : lookupA [((b2, c3 :: c4 :: t1), v1), ((b2, c3 :: c4' :: t2), v2)]
          (b2, [c3]) = none := by
        simp [lookupA]
      rw [hex]
      dsimp only
      have hns : List.filter (fun e => e.1.1 = b2)
          [((b2, c3 :: c4 :: t1), v1), ((b2, c3 :: c4' :: t2), v2)] =
          [((b2, c3 :: c4 :: t1), v1), ((b2, c3 :: c4' :: t2), v2)] := by
        simp
      rw [hns]
      rw [if_neg (by simp)]
      unfold diskLoop
      rw [List.drop_left' hb2]
      simp only [List.map_cons, List.map_nil]
      rw [if_pos (by simp [List.isPrefixOf_cons₂, List.isPrefixOf])]
      rw [if_neg (by simp)]
      unfold diskLoop
      rw [List.drop_left' hb2]
      rw [if_pos (by simp [List.isPrefixOf_cons₂, List.isPrefixOf])]
      rw [if_pos (by simp)]
    · unfold diskObject
      rw [if_neg hlen4, List.take_left' hb2, List.drop_left' hb2]
      dsimp only
      by_cases ht1 : t1 = []
      · subst ht1
        have hex : lookupA [((b2, [c3, c4]), v1), ((b2, c3 :: c4' :: t2), v2)]
            (b2, [c3, c4]) = some v1 := by
          simp [lookupA]
        rw [hex]
      · have hex : lookupA [((b2, c3 :: c4 :: t1), v1), ((b2, c3 :: c4' :: t2), v2)]
            (b2, [c3, c4]) = none := by
          have hr1 : c3 :: c4 :: t1 ≠ [c3, c4] := by
            intro hc
            injection hc with _ hc2
            injection hc2 with _ hc3
            exact ht1 hc3
          have hr2 : c3 :: c4' :: t2 ≠ [c3, c4] := by
            intro hc
            injection hc with _ hc2
            injection hc2 with hc3 _
            exact hne hc3.symm
          simp [lookupA, hr1, hr2]
        rw [hex]
        dsimp only
        have hns : List.filter (fun e => e.1.1 = b2)
            [((b2, c3 :: c4 :: t1), v1), ((b2, c3 :: c4' :: t2), v2)] =
            [((b2, c3 :: c4 :: t1), v1), ((b2, c3 :: c4' :: t2), v2)] := by
          simp
        rw [hns]
        rw [if_neg (by simp)]
        unfold diskLoop
        rw [List.drop_left' hb2]
        simp only [List.map_cons, List.map_nil]
        rw [if_pos (by simp [List.isPrefixOf_cons₂, List.isPrefixOf])]
        rw [if_neg (by simp)]
        unfold diskLoop
        rw [List.drop_left' hb2]
        have hnp : ([c3, c4].isPrefixOf (c3 :: c4' :: t2)) = false := by
          simp [List.isPrefixOf_cons₂, List.isPrefixOf]
          omega
        rw [hnp]
        simp only [Bool.false_eq_true, if_false]
        unfold diskLoop
        rw [if_neg (by simp)]
        dsimp only
        have hfin : lookupA [((b2, c3 :: c4 :: t1), v1), ((b2, c3 :: c4' :: t2), v2)]
            (b2, c3 :: c4 :: t1) = some v1 := by
          simp [lookupA]
        rw [hfin]
        rfl

theorem object_resolution_witness :
    memObject [(strB "aa", strB "v")] (strB "aa") = .ok (strB "v") ∧
    memObject [(strB "aa", strB "v")] (strB "zz") =
      .err (strB "object hash " ++ strB "zz" ++ strB " does not exist") ∧
    memObject [(strB "aa", strB "v")] (strB "a") =
      .ok ((lookupA [(strB "aa", strB "v")] (strB "aa")).getD []) ∧
    memObject [(strB "abc1xxx", strB "v1"), (strB "abc2yyy", strB "v2")] (strB "abc") =
      .err (strB "ambigious hash " ++ strB "abc") ∧
    diskObject [((strB "ab", strB "cd"), strB "v")] (strB "abcd") = .ok (strB "v") ∧
    diskObject [((strB "ab", 99 :: 49 :: strB "xxx"), strB "v1"),
                ((strB "ab", 99 :: 50 :: strB "yyy"), strB "v2")] (strB "ab" ++ [99]) =
      .err (strB "ambigious hash " ++ (strB "ab" ++ [99])) ∧
    diskObject [((strB "ab", 99 :: 49 :: strB "xxx"), strB "v1"),
                ((strB "ab", 99 :: 50 :: strB "yyy"), strB "v2")] (strB "ab" ++ [99, 49]) =
      .ok (strB "v1") :=
  ⟨object_resolution.1 _ _ _ (by decide),
   object_resolution.2.1 _ _ (by decide) (by decide),
   object_resolution.2.2.1 _ _ (strB "aa") (by decide) (by decide) (by decide),
   object_resolution.2.2.2.1 _ _ (by decide) (by decide) (by decide),
   object_resolution.2.2.2.2.1 _ (strB "abcd") _ (by decide) (by decide),
   (object_resolution.2.2.2.2.2 (strB "ab") (strB "v1") (strB "v2") (strB "xxx") (strB "yyy")
     99 49 50 (by decide) (by decide)).1,
   (object_resolution.2.2.2.2.2 (strB "ab") (strB "v1") (strB "v2") (strB "xxx") (strB "yyy")
     99 49 50 (by decide) (by decide)).2⟩

theorem diskLoop_ne_panic (h : List Nat) : ∀ (ks : List (List Nat)) (m : List Nat),
    diskLoop h ks m ≠ .panicked := by
  intro ks
  induction ks with
  | nil =>
    intro m
    unfold diskLoop
    split <;> simp
  | cons a ks ih =>
    intro m
    unfold diskLoop
    split
    · split
      · simp
      · exact ih a
    · exact ih m

theorem memLoop_ne_panic (h : List Nat) : ∀ (ks : List (List Nat)) (m : List Nat),
    memLoop h ks m ≠ .panicked := by
  intro ks
  induction ks with
  | nil =>
    intro m
    unfold memLoop
    split <;> simp
  | cons a ks ih =>
    intro m
    unfold memLoop
    split
    · split
      · simp
      · exact ih a
    · exact ih m

/-- C10: `DiskStore.Object` slices `hash[:2]` unconditionally, so a
query shorter than 2 bytes panics with a slice bound violation; with at
least 2 bytes the disk resolution never panics, and the in-memory
resolution never panics for any query length. -/
theorem disk_short_hash_panics :
    (∀ (fs : DiskFS) (h : List Nat), h.length < 2 → diskObject fs h = .panicked) ∧
    (∀ (fs : DiskFS) (h : List Nat), 2 ≤ h.length → diskObject fs h ≠ .panicked) ∧
    (∀ (st : MemSt) (h : List Nat), memObject st h ≠ .panicked) := by
  refine ⟨?_, ?_, ?_⟩
  · intro fs h hlen
    unfold diskObject
    rw [if_pos hlen]
  · intro fs h hlen
    unfold diskObject
    rw [if_neg (by omega)]
    dsimp only
    split
    · simp
    · split
      · simp
      · split
        · simp
        · simp
        · rename_i hdl
          exact absurd hdl (diskLoop_ne_panic h _ _)
  · intro st h
    unfold memObject
    split
    · simp
    · split
      · simp
      · simp
      · rename_i hdl
        exact absurd hdl (memLoop_ne_panic h _ _)

theorem disk_short_hash_panics_witness :
    ((strB "a").length < 2 ∧ diskObject [] (strB "a") = .panicked) ∧
    (2 ≤ (strB "abcd").length ∧ diskObject [] (strB "abcd") ≠ .panicked) ∧
    memObject [] (strB "a") ≠ .panicked :=
  ⟨⟨by decide, disk_short_hash_panics.1 [] (strB "a") (by decide)⟩,
   ⟨by decide, disk_short_hash_panics.2.1 [] (strB "abcd") (by decide)⟩,
   disk_short_hash_panics.2.2 [] (strB "a")⟩

/-- C8 counterexample: an unrecognized type token does not surface as a
returned error; `ParseType` has no error return and the source panics,
so header parsing during `Reader` construction aborts. -/
theorem unknown_type_counterexample :
    readObject (strB "tag 3\x00foo") = .panicked ∧
    parseType (strB "tag") = none := by decide

/-- C8 amended: an unrecognized type token is never mapped to a default
type — `ParseType` recognizes exactly the three tokens — but instead of
returning a typed error the source panics, which aborts `Reader`
construction. -/
theorem unknown_type_panics (q b : List Nat)
    (h1 : q ≠ strB "blob") (h2 : q ≠ strB "tree") (h3 : q ≠ strB "commit")
    (h32 : 32 ∉ q) (hlen : q.length ≤ 27) :
    parseType q = none ∧ readObject (q ++ 32 :: b) = .panicked := by
  have hpt : parseType q = none := by
    unfold parseType
    rw [if_neg h1, if_neg h2, if_neg h3]
  refine ⟨hpt, ?_⟩
  unfold readObject
  dsimp only
  have h28 : 28 = q.length + (28 - q.length - 1 + 1) := by omega
  have hwin : (q ++ 32 :: b).take 28 = q ++ 32 :: b.take (28 - q.length - 1) := by
    rw [h28, List.take_append]
    simp
  rw [hwin, readBytes_append _ _ h32]
  simp only [List.dropLast_concat]
  rw [hpt]

theorem unknown_type_panics_witness :
    (strB "tag" ≠ strB "blob" ∧ strB "tag" ≠ strB "tree" ∧ strB "tag" ≠ strB "commit" ∧
      (32 : Nat) ∉ strB "tag" ∧ (strB "tag").length ≤ 27) ∧
    (parseType (strB "tag") = none ∧
      readObject (strB "tag" ++ 32 :: strB "3\x00foo") = .panicked) :=
  ⟨by decide, unknown_type_panics (strB "tag") (strB "3\x00foo")
    (by decide) (by decide) (by decide) (by decide) (by decide)⟩

/-- The pretty line of the C5 failing input, and its binary rendering. -/
def c5full : List Nat :=
  strB "100644 blob 8c01d89ae06311834ee4b1fab2f0414d35f01102\thello.txt\n"

/-- The 20 digest bytes of the C5 failing input. -/
def c5dig : List Nat :=
  [140, 1, 216, 154, 224, 99, 17, 131, 78, 228, 177, 250, 178, 240, 65, 77, 53, 240, 17, 2]

/-- The binary tree entry the C5 line encodes to. -/
def c5bin : List Nat := strB "100644 hello.txt" ++ 0 :: c5dig

/-- C5: splitting the same well-formed pretty line across two
`treeWriter.Write` calls (cut mid-token at byte 10) is not equivalent to
one call with the whole line. The first call drains its partial bytes
into a per-call `bufio.Reader` and discards them — the state after it is
exactly the initial state, nothing is retained — and the second call,
starting from that state, sees only the tail bytes and also emits
nothing, while the single whole-line call emits the full binary entry. -/
theorem chunked_write_loses_bytes :
    twWrite twInit (c5full.take 10) = some (twInit, []) ∧
    twWrite twInit (c5full.drop 10) = some (twInit, []) ∧
    twWrite twInit c5full = some (⟨[], [], c5dig⟩, c5bin) ∧
    ([] ++ [] : List Nat) ≠ c5bin := by decide

theorem writeHeader_blob (D : List Nat) :
    writeHeader newWriter .Blob (Int.ofNat D.length) =
      .ok (⟨true, .Blob, none, [], headerBytes .Blob D.length⟩,
           (headerBytes .Blob D.length).length) := by
  unfold writeHeader newWriter
  simp only [Bool.false_eq_true, if_false]
  rw [if_neg (by simp)]
  simp [Int.toNat_ofNat]

/-- The framed bytes a blob write of `D` produces. -/
def blobFramed (D : List Nat) : List Nat := headerBytes .Blob D.length ++ D

/-- The digest a blob write of `D` reports. -/
def blobHash (D : List Nat) : List Nat := hexEncode (sha1 (blobFramed D))

/-- C3 counterexample: publishing the same two bytes twice to the
in-memory store does not succeed twice; the second `Close` returns the
already-exists error instead of being an idempotent no-op. -/
theorem publish_twice_counterexample :
    memPublish [] (strB "hi") =
      .ok ([(strB "32f95c0d1244a78b2be1bab8de17906fabb2c4a8",
             headerBytes .Blob 2 ++ strB "hi")],
           strB "32f95c0d1244a78b2be1bab8de17906fabb2c4a8") ∧
    memPublish [(strB "32f95c0d1244a78b2be1bab8de17906fabb2c4a8",
                 headerBytes .Blob 2 ++ strB "hi")] (strB "hi") =
      .err (strB "object with hash " ++
            strB "32f95c0d1244a78b2be1bab8de17906fabb2c4a8" ++ strB " exists") := by
  decide

/-- C3 amended: for both backends the first publish of `D` succeeds and
creates exactly one binding keyed by the digest; a second publish of the
same content computes the same digest (the in-memory error message names
it) but fails with an already-exists error — collision-on-publish is a
hard error in this code, not an idempotent no-op — and the store is not
modified by the failing publish. -/
theorem publish_twice_amended (D : List Nat) :
    memPublish [] D = .ok ([(blobHash D, blobFramed D)], blobHash D) ∧
    memPublish [(blobHash D, blobFramed D)] D =
      .err (strB "object with hash " ++ blobHash D ++ strB " exists") ∧
    diskPublish [] D =
      .ok ([(((blobHash D).take 2, (blobHash D).drop 2), blobFramed D)], blobHash D) ∧
    diskPublish [(((blobHash D).take 2, (blobHash D).drop 2), blobFramed D)] D =
      .err (strB "file exists") := by
  refine ⟨?_, ?_, ?_, ?_⟩
  · unfold memPublish
    rw [writeHeader_blob]
    rfl
  · unfold memPublish
    rw [writeHeader_blob]
    dsimp only
    have hw : wWrite ⟨true, .Blob, none, [], headerBytes .Blob D.length⟩ D =
        .ok (⟨true, .Blob, none, [], blobFramed D⟩, D.length) := rfl
    rw [hw]
    dsimp only
    unfold memClose
    have hc : wClose ⟨true, .Blob, none, [], blobFramed D⟩ =
        .ok ⟨true, .Blob, none, [], blobFramed D⟩ := rfl
    rw [hc]
    dsimp only
    have hl : lookupA [(blobHash D, blobFramed D)]
        (wHash ⟨true, .Blob, none, [], blobFramed D⟩) = some (blobFramed D) := by
      show lookupA [(blobHash D, blobFramed D)] (blobHash D) = some (blobFramed D)
      unfold lookupA
      rw [if_pos rfl]
    rw [hl]
    rfl
  · unfold diskPublish
    rw [writeHeader_blob]
    rfl
  · unfold diskPublish
    rw [writeHeader_blob]
    dsimp only
    have hw : wWrite ⟨true, .Blob, none, [], headerBytes .Blob D.length⟩ D =
        .ok (⟨true, .Blob, none, [], blobFramed D⟩, D.length) := rfl
    rw [hw]
    dsimp only
    unfold diskClose
    have hc : wClose ⟨true, .Blob, none, [], blobFramed D⟩ =
        .ok ⟨true, .Blob, none, [], blobFramed D⟩ := rfl
    rw [hc]
    dsimp only
    have hl : lookupA [(((blobHash D).take 2, (blobHash D).drop 2), blobFramed D)]
        ((wHash ⟨true, .Blob, none, [], blobFramed D⟩).take 2,
         (wHash ⟨true, .Blob, none, [], blobFramed D⟩).drop 2) = some (blobFramed D) := by
      show lookupA _ ((blobHash D).take 2, (blobHash D).drop 2) = some (blobFramed D)
      unfold lookupA
      rw [if_pos rfl]
    rw [hl]
    rfl

theorem publish_twice_amended_witness :
    memPublish [] (strB "hi") = .ok ([(blobHash (strB "hi"), blobFramed (strB "hi"))],
      blobHash (strB "hi")) ∧
    memPublish [(blobHash (strB "hi"), blobFramed (strB "hi"))] (strB "hi") =
      .err (strB "object with hash " ++ blobHash (strB "hi") ++ strB " exists") ∧
    diskPublish [] (strB "hi") =
      .ok ([(((blobHash (strB "hi")).take 2, (blobHash (strB "hi")).drop 2),
             blobFramed (strB "hi"))], blobHash (strB "hi")) ∧
    diskPublish [(((blobHash (strB "hi")).take 2, (blobHash (strB "hi")).drop 2),
                  blobFramed (strB "hi"))] (strB "hi") =
      .err (strB "file exists") :=
  publish_twice_amended (strB "hi")
